import Mathlib

/-!
# Verification of the OTVision core: IOU tracker and frame-group preprocessing

Shallow embedding of `src/OTVision/track/iou.py` and
`src/OTVision/track/preprocess.py`.  Python floats are modelled as `ℚ`
(the code only performs field arithmetic and order comparisons on them),
Python ints as `ℤ`/`ℕ`, `datetime`/`timedelta` values as `ℚ` epoch seconds,
lists and ordered dicts as Lean lists (in insertion order).

The tracker `track_iou` mutates dictionaries in place; here it is explicit
state passing.  The final `max_class` pass of `track_iou` reads the loop
variable `track` left over from the per-track loop; the embedding carries
that binding (`lastIter`) and returns `Except`, since the pass raises
`NameError` when the binding was never made although features exist.
-/

namespace OTVision

/-- One classified detection of a frame, as consumed by `track_iou`
(`det["x"|"y"|"w"|"h"|"conf"|"class"]`).  `cls` stands for the `"class"` key. -/
structure Det where
  x : ℚ
  y : ℚ
  w : ℚ
  h : ℚ
  conf : ℚ
  cls : String
deriving DecidableEq, Repr, Inhabited

/-- `make_bbox` from `iou.py`: center/size to corner box. -/
def make_bbox (obj : Det) : ℚ × ℚ × ℚ × ℚ :=
  (obj.x - obj.w / 2, obj.y - obj.h / 2, obj.x + obj.w / 2, obj.y + obj.h / 2)

/-- `center` from `iou.py`. -/
def center (obj : Det) : ℚ × ℚ :=
  (obj.x, obj.y)

/-- Modelled from the spec: `OTVision/track/iou_util.py` is not part of the
sources, only its import in `iou.py`.  Spec section 4.1: standard
intersection-over-union of two corner boxes, defined as 0 when the boxes do
not overlap or the union has no area (no division by zero). -/
def iou (a b : ℚ × ℚ × ℚ × ℚ) : ℚ :=
  let iw := max 0 (min a.2.2.1 b.2.2.1 - max a.1 b.1)
  let ih := max 0 (min a.2.2.2 b.2.2.2 - max a.2.1 b.2.1)
  let inter := iw * ih
  let uni :=
    (a.2.2.1 - a.1) * (a.2.2.2 - a.2.1) + (b.2.2.1 - b.1) * (b.2.2.2 - b.2.1) - inter
  if uni ≤ 0 then 0 else inter / uni

/-- A live track of `track_iou` (the per-track dict created at lines 123-136).
`cls` is the `"class"` list, `ctr` the `"center"` list. -/
structure Track where
  frames : List ℤ
  bboxes : List (ℚ × ℚ × ℚ × ℚ)
  ctr : List (ℚ × ℚ)
  conf : List ℚ
  cls : List String
  max_class : String
  max_conf : ℚ
  vehID : ℕ
  start_frame : ℤ
  age : ℕ
deriving DecidableEq, Repr, Inhabited

/-- A GeoJSON feature of the tracker output (`tracks_geojson["features"]`
element).  `max_class` is `none` until the final pass sets it. -/
structure Feature where
  coordinates : List (ℚ × ℚ)
  max_conf : ℚ
  ID : ℕ
  start_frame : ℤ
  max_class : Option String
deriving DecidableEq, Repr, Inhabited

/-- A per-frame output detection of `track_iou`: the original detection values
plus the `"first"` and `"finished"` keys the tracker attaches. -/
structure OutDet where
  det : Det
  first : Bool
  finished : Bool
deriving DecidableEq, Repr, Inhabited

/-- Python `max(dets, key=...)` with a rational key: first maximal element
wins; `none` on the empty list (Python raises there, but `track_iou` guards
with `len(dets) > 0`). -/
def maxByKeyQ (key : Det → ℚ) : List Det → Option Det
  | [] => none
  | d :: ds => some (ds.foldl (fun best x => if key best < key x then x else best) d)

/-- The last recorded bbox of a track, `track["bboxes"][-1]` (tracks always
have at least one bbox; the default is never used). -/
def lastBbox (t : Track) : ℚ × ℚ × ℚ × ℚ :=
  t.bboxes.getLastD (0, 0, 0, 0)

/-- The frame span of a track, `track["frames"][-1] - track["frames"][0]`. -/
def trackSpan (t : Track) : ℤ :=
  t.frames.getLastD 0 - t.frames.headD 0

/-- The finalization condition of `track_iou` (lines 98-101 and 165-168):
`track["max_conf"] >= sigma_h and track["frames"][-1] - track["frames"][0] >= t_min`. -/
def finalCond (sigma_h t_min : ℚ) (t : Track) : Bool :=
  decide (sigma_h ≤ t.max_conf) && decide (t_min ≤ (trackSpan t : ℚ))

/-- The feature appended for a finalized track (lines 104-117 and 151-163);
`max_class` is attached only by the later pass. -/
def rawFeature (t : Track) : Feature :=
  { coordinates := t.ctr
    max_conf := t.max_conf
    ID := t.vehID
    start_frame := t.frames.headD 0
    max_class := none }

/-- State of the per-frame loop body of `track_iou` while iterating over
`tracks_active`.  `feats`, `finished`, `lastIter` persist across frames;
`exitedMid` is a ghost log of every track that leaves the active pool
mid-run (whether emitted or silently dropped). -/
structure FrameState where
  dets : List Det
  updated : List Track
  saved : List Track
  outs : List (ℕ × OutDet)
  feats : List Feature
  finished : List ℕ
  exitedMid : List Track
  lastIter : Option ℕ
deriving Repr

/-- Lines 92-117 of `iou.py`: a track that was not updated in the current
frame ages or is finalized/dropped. -/
def agePhase (sigma_h t_min : ℚ) (t_miss_max : ℕ) (s : FrameState) (track : Track) :
    FrameState :=
  if track.age < t_miss_max then
    { s with saved := s.saved ++ [{ track with age := track.age + 1 }] }
  else if finalCond sigma_h t_min track then
    { s with
      finished := s.finished ++ [track.vehID]
      feats := s.feats ++ [rawFeature track]
      exitedMid := s.exitedMid ++ [track] }
  else
    { s with exitedMid := s.exitedMid ++ [track] }

/-- Lines 69-117 of `iou.py`: one iteration of `for track in tracks_active`.
The `lastIter` field records the loop variable binding that the final
`max_class` pass will read. -/
def trackStep (sigma_iou sigma_h t_min : ℚ) (t_miss_max : ℕ) (frame_num : ℤ)
    (s0 : FrameState) (track : Track) : FrameState :=
  let s := { s0 with lastIter := some track.vehID }
  match maxByKeyQ (fun x => iou (lastBbox track) (make_bbox x)) s.dets with
  | none => agePhase sigma_h t_min t_miss_max s track
  | some best =>
    if sigma_iou ≤ iou (lastBbox track) (make_bbox best) then
      { s with
        updated := s.updated ++ [{ track with
          frames := track.frames ++ [frame_num]
          bboxes := track.bboxes ++ [make_bbox best]
          ctr := track.ctr ++ [center best]
          conf := track.conf ++ [best.conf]
          cls := track.cls ++ [best.cls]
          max_conf := max track.max_conf best.conf
          age := 0 }]
        dets := s.dets.erase best
        outs := s.outs ++ [(track.vehID, { det := best, first := false, finished := false })] }
    else
      agePhase sigma_h t_min t_miss_max s track

/-- State of the new-track creation loop (lines 120-139). -/
structure NewState where
  vehID : ℕ
  tracks : List Track
  outs : List (ℕ × OutDet)
deriving Repr

/-- Lines 121-139 of `iou.py`: each detection left unclaimed starts a fresh
track. -/
def newTrackStep (frame_num : ℤ) (s : NewState) (det : Det) : NewState :=
  let v := s.vehID + 1
  { vehID := v
    tracks := s.tracks ++ [{
      frames := [frame_num]
      bboxes := [make_bbox det]
      ctr := [center det]
      conf := [det.conf]
      cls := [det.cls]
      max_class := det.cls
      max_conf := det.conf
      vehID := v
      start_frame := frame_num
      age := 0 }]
    outs := s.outs ++ [(v, { det := det, first := true, finished := false })] }

/-- The whole-run state of `track_iou` between frames. -/
structure RunState where
  pool : List Track
  vehID : ℕ
  newDets : List (ℤ × List (ℕ × OutDet))
  feats : List Feature
  finished : List ℕ
  exitedMid : List Track
  lastIter : Option ℕ
deriving Repr

/-- The frame-loop state at line 62-68 of `iou.py`: the low-threshold filter
applied to the frame's detections, empty per-frame accumulators, and the
carried-over cross-frame accumulators. -/
def frameInit (sigma_l : ℚ) (st : RunState) (fr : ℤ × List Det) : FrameState :=
  { dets := fr.2.filter (fun det => decide (sigma_l ≤ det.conf))
    updated := [], saved := [], outs := []
    feats := st.feats, finished := st.finished
    exitedMid := st.exitedMid, lastIter := st.lastIter }

/-- The full `for track in tracks_active` loop of one frame. -/
def frameFold (sigma_l sigma_h sigma_iou t_min : ℚ) (t_miss_max : ℕ)
    (st : RunState) (fr : ℤ × List Det) : FrameState :=
  st.pool.foldl (trackStep sigma_iou sigma_h t_min t_miss_max fr.1)
    (frameInit sigma_l st fr)

/-- The full `for det in dets` new-track loop of one frame. -/
def newFold (vehID : ℕ) (frame_num : ℤ) (dets : List Det) : NewState :=
  dets.foldl (newTrackStep frame_num) { vehID := vehID, tracks := [], outs := [] }

/-- Lines 62-140 of `iou.py`: processing of one input frame. -/
def processFrame (sigma_l sigma_h sigma_iou t_min : ℚ) (t_miss_max : ℕ)
    (st : RunState) (fr : ℤ × List Det) : RunState :=
  let fs := frameFold sigma_l sigma_h sigma_iou t_min t_miss_max st fr
  let ns := newFold st.vehID fr.1 fs.dets
  { pool := fs.updated ++ fs.saved ++ ns.tracks
    vehID := ns.vehID
    newDets := st.newDets ++ [(fr.1, fs.outs ++ ns.outs)]
    feats := fs.feats
    finished := fs.finished
    exitedMid := fs.exitedMid
    lastIter := fs.lastIter }

/-- The initial state of `track_iou` (lines 55-60). -/
def initState : RunState :=
  { pool := [], vehID := 0, newDets := [], feats := [], finished := []
    exitedMid := [], lastIter := none }

/-- Lexicographic order on code-point lists: how Python compares strings. -/
def charListLt : List Char → List Char → Bool
  | [], [] => false
  | [], _ :: _ => true
  | _ :: _, [] => false
  | a :: as, b :: bs =>
    if a.val.toNat < b.val.toNat then true
    else if b.val.toNat < a.val.toNat then false
    else charListLt as bs

/-- Python string comparison by code points. -/
def strLt (a b : String) : Bool :=
  charListLt a.data b.data

/-- `pd.Series(xs).mode().iat[0]` (pandas is external to the repository):
`mode()` lists the values of maximal multiplicity sorted ascending, and
`.iat[0]` takes the first, so the result is the smallest value of maximal
multiplicity; `none` on the empty list (there `.iat[0]` would raise). -/
def seriesMode (xs : List String) : Option String :=
  match xs with
  | [] => none
  | x :: _ =>
    some (xs.foldl (fun best c =>
      if xs.count best < xs.count c then c
      else if (xs.count c == xs.count best) && strLt c best then c
      else best) x)

/-- Lines 179-184 of `iou.py`: `det["finished"]` is set to whether the owning
vehicle id is in `vehIDs_finished`. -/
def setFinished (fin : List ℕ) (nd : List (ℤ × List (ℕ × OutDet))) :
    List (ℤ × List (ℕ × OutDet)) :=
  nd.map (fun fd =>
    (fd.1, fd.2.map (fun p => (p.1, { p.2 with finished := decide (p.1 ∈ fin) }))))

/-- Everything `track_iou` has computed before the final `max_class` pass.
`exited` is the ghost log of every track that ever left the active pool:
the mid-run exits followed by the pool remaining at end of input. -/
structure CoreResult where
  newDets : List (ℤ × List (ℕ × OutDet))
  rawFeats : List Feature
  vehIDs_finished : List ℕ
  exited : List Track
  exitedMid : List Track
  pool : List Track
  lastIter : Option ℕ
deriving Repr

/-- Lines 62-184 of `iou.py` except the `max_class` pass: run all frames,
emit the qualifying remaining tracks (lines 151-169), set the `finished`
flags. -/
def track_iou_core (sigma_l sigma_h sigma_iou t_min : ℚ) (t_miss_max : ℕ)
    (input : List (ℤ × List Det)) : CoreResult :=
  let st := input.foldl (processFrame sigma_l sigma_h sigma_iou t_min t_miss_max) initState
  let endFeats := (st.pool.filter (finalCond sigma_h t_min)).map rawFeature
  { newDets := setFinished st.finished st.newDets
    rawFeats := st.feats ++ endFeats
    vehIDs_finished := st.finished
    exited := st.exitedMid ++ st.pool
    exitedMid := st.exitedMid
    pool := st.pool
    lastIter := st.lastIter }

/-- The values returned by `track_iou` (plus the ghost exit logs). -/
structure TrackIouResult where
  newDets : List (ℤ × List (ℕ × OutDet))
  features : List Feature
  vehIDs_finished : List ℕ
  exited : List Track
  exitedMid : List Track
deriving DecidableEq, Repr, Inhabited

/-- The final state of the track dict bound to the Python loop variable
`track`: tracks stop being mutated once they leave the pool, so it is the
snapshot in the exit log. -/
def lookupTrack (v : ℕ) (ts : List Track) : Option Track :=
  ts.find? (fun t => t.vehID == v)

/-- `track_iou` from `iou.py` (lines 31-193).  The `max_class` pass
(lines 173-176) reads the stale loop variable `track`, so every feature gets
the class mode of that one track; if features exist but the loop variable was
never bound the pass raises `NameError`. -/
def track_iou (sigma_l sigma_h sigma_iou t_min : ℚ) (t_miss_max : ℕ)
    (input : List (ℤ × List Det)) : Except String TrackIouResult :=
  let c := track_iou_core sigma_l sigma_h sigma_iou t_min t_miss_max input
  if c.rawFeats.isEmpty then
    .ok { newDets := c.newDets, features := [], vehIDs_finished := c.vehIDs_finished
          exited := c.exited, exitedMid := c.exitedMid }
  else
    match (c.lastIter.bind (fun v => lookupTrack v c.exited)).bind
        (fun t => seriesMode t.cls) with
    | none => .error "NameError: name track is not defined"
    | some m =>
      .ok { newDets := c.newDets
            features := c.rawFeats.map (fun f => { f with max_class := some m })
            vehIDs_finished := c.vehIDs_finished
            exited := c.exited, exitedMid := c.exitedMid }

/-! ## Preprocessing layer (src/OTVision/track/preprocess.py)

Datetimes are epoch seconds in `ℚ`, timedeltas are seconds in `ℚ`. -/

/-- The `Detection` dataclass of `preprocess.py`. -/
structure PDetection where
  label : String
  conf : ℚ
  x : ℚ
  y : ℚ
  w : ℚ
  h : ℚ
deriving DecidableEq, Repr, Inhabited

/-- The `Frame` dataclass of `preprocess.py`. -/
structure PFrame where
  frame : ℤ
  occurrence : ℚ
  input_file_path : String
  detections : List PDetection
deriving DecidableEq, Repr, Inhabited

/-- `Frame.derive_frame_number` (lines 110-113). -/
def PFrame.derive_frame_number (f : PFrame) (new_frame_number : ℤ) : PFrame :=
  { f with frame := new_frame_number }

/-- The `FrameRange` class of `preprocess.py` (file-level metadata only). -/
structure FrameRange where
  files : List String
  start_date : ℚ
  end_date : ℚ
deriving DecidableEq, Repr, Inhabited

/-- `FrameRange._merge` (lines 143-148). -/
def FrameRange.mergeOrdered (first second : FrameRange) : FrameRange :=
  { files := first.files ++ second.files
    start_date := first.start_date
    end_date := second.end_date }

/-- `FrameRange.merge` (lines 137-141). -/
def FrameRange.merge (self other : FrameRange) : FrameRange :=
  if self.start_date < other.start_date then FrameRange.mergeOrdered self other
  else FrameRange.mergeOrdered other self

/-- The `FrameGroup` dataclass of `preprocess.py`. -/
structure FrameGroup where
  frames : List PFrame
  order_key : String
deriving DecidableEq, Repr, Inhabited

/-- `FrameGroup.start_date` (lines 176-177), `self.frames[0].occurrence`. -/
def FrameGroup.start_date (g : FrameGroup) : ℚ :=
  (g.frames.headD default).occurrence

/-- `FrameGroup.end_date` (lines 179-180), `self.frames[-1].occurrence`. -/
def FrameGroup.end_date (g : FrameGroup) : ℚ :=
  (g.frames.getLastD default).occurrence

/-- The loop body of `FrameGroup._merge` (lines 192-194): increment the
running frame number and append the renumbered frame. -/
def appendRenumbered (acc : List PFrame × ℤ) (frame : PFrame) : List PFrame × ℤ :=
  (acc.1 ++ [frame.derive_frame_number (acc.2 + 1)], acc.2 + 1)

/-- `FrameGroup._merge` (lines 188-195): append the second group's frames,
renumbering them to continue from the first group's last frame number.
The `order_key` is taken from `self` (line 195). -/
def FrameGroup.mergeOrdered (self first second : FrameGroup) : FrameGroup :=
  let last_frame_number := (first.frames.getLastD default).frame
  let res := second.frames.foldl appendRenumbered (first.frames, last_frame_number)
  { frames := res.1, order_key := self.order_key }

/-- `FrameGroup.merge` (lines 182-186). -/
def FrameGroup.merge (self other : FrameGroup) : FrameGroup :=
  if self.start_date < other.start_date then FrameGroup.mergeOrdered self self other
  else FrameGroup.mergeOrdered self other self

/-- The `metadata.video` subtree a file contributes: an optional recorded
start date and an optional expected duration in whole seconds. -/
structure VideoMeta where
  recorded_start_date : Option ℚ
  expected_duration : Option ℤ
deriving DecidableEq, Repr, Inhabited

/-- One raw frame entry of an otdet file's `data` mapping: its `occurrence`
and its raw detections (already coerced to numbers, as
`DetectionParser.convert` produces them). -/
structure RawFrame where
  occurrence : ℚ
  detections : List PDetection
deriving DecidableEq, Repr, Inhabited

/-- One read-in otdet file: the `metadata.video` subtree and the per-frame
`data` mapping in insertion order. -/
structure Recording where
  metadata : VideoMeta
  data : List (ℤ × RawFrame)
deriving DecidableEq, Repr, Inhabited

/-- Modelled from the spec: `get_metadata` (imported from
`OTVision.helpers.files`) is not part of the sources.  Per spec section 6 it
returns the file's metadata subtree. -/
def get_metadata (r : Recording) : VideoMeta :=
  r.metadata

/-- `MISSING_START_DATE = datetime(1900, 1, 1)` as epoch seconds. -/
def MISSING_START_DATE : ℚ := -2208988800

/-- `MISSING_EXPECTED_DURATION = timedelta(minutes=15)` in seconds. -/
def MISSING_EXPECTED_DURATION : ℚ := 900

/-- `Path.parent.as_posix()` on a posix path string, used by
`FrameGroupParser.order_key` (lines 305-306). -/
def parentPath (p : String) : String :=
  String.intercalate "/" ((p.splitOn "/").dropLast)

/-- The sort key of `FrameGroupParser.convert` line 302:
`(frame.occurrence, frame.frame)` lexicographically. -/
def frameLe (a b : PFrame) : Bool :=
  decide (a.occurrence < b.occurrence) ||
    (decide (a.occurrence = b.occurrence) && decide (a.frame ≤ b.frame))

/-- `FrameGroupParser.convert` (lines 283-303): parse each raw frame entry,
shift its number by `frame_offset`, and sort by `(occurrence, frame)`
(Python `list.sort` is stable, as is `mergeSort`). -/
def FrameGroupParser.convert (input_file_path : String)
    (input : List (ℤ × RawFrame)) (frame_offset : ℤ) : FrameGroup :=
  let frames := input.map (fun kv =>
    ({ frame := kv.1 + frame_offset
       occurrence := kv.2.occurrence
       input_file_path := input_file_path
       detections := kv.2.detections } : PFrame))
  { frames := frames.mergeSort frameLe, order_key := parentPath input_file_path }

/-- `Preprocess._parse_frame_groups` (lines 366-389): one `FrameGroup` per
input file, plus the metadata of each file keyed by its path. -/
def parse_frame_groups (input : List (String × Recording)) (frame_offset : ℤ) :
    List FrameGroup × List (String × VideoMeta) :=
  input.foldl
    (fun acc kv =>
      (acc.1 ++ [FrameGroupParser.convert kv.1 kv.2.data frame_offset],
       acc.2 ++ [(kv.1, get_metadata kv.2)]))
    ([], [])

/-- The loop body of `Preprocess._merge_groups` (lines 403-410): either merge
the current group into the open chain or close the chain out. -/
def mergeGroupStep (time_without_frames : ℚ)
    (acc : List FrameGroup × FrameGroup) (current_group : FrameGroup) :
    List FrameGroup × FrameGroup :=
  if current_group.start_date - acc.2.end_date ≤ time_without_frames then
    (acc.1, acc.2.merge current_group)
  else
    (acc.1 ++ [acc.2], current_group)

/-- `Preprocess._merge_groups` (lines 391-412): chain-merge the groups in
encounter order; a group opens a new chain when its start is more than
`time_without_frames` after the current chain's end.  The source indexes
`all_groups[0]` and is only called on nonempty input; the empty case is
mapped to `[]`. -/
def mergeGroups (time_without_frames : ℚ) : List FrameGroup → List FrameGroup
  | [] => []
  | g :: rest =>
    let res := rest.foldl (mergeGroupStep time_without_frames) ([], g)
    res.1 ++ [res.2]

/-- `Preprocess.process` (lines 350-364). -/
def Preprocess.process (time_without_frames : ℚ)
    (input : List (String × Recording)) (frame_offset : ℤ) :
    List FrameGroup × List (String × VideoMeta) :=
  let pr := parse_frame_groups input frame_offset
  if pr.1.length = 0 then ([], pr.2)
  else (mergeGroups time_without_frames pr.1, pr.2)

/-- `GroupFrameRanges.extract_start_date_from` (lines 479-483). -/
def extract_start_date_from (m : VideoMeta) : ℚ :=
  m.recorded_start_date.getD MISSING_START_DATE

/-- `GroupFrameRanges.extract_expected_duration_from` (lines 485-489). -/
def extract_expected_duration_from (m : VideoMeta) : ℚ :=
  (m.expected_duration.map (fun s => (s : ℚ))).getD MISSING_EXPECTED_DURATION

/-- `GroupFrameRanges._parse_frame_ranges` (lines 445-455). -/
def parse_frame_ranges (input : List (String × VideoMeta)) : List FrameRange :=
  input.map (fun kv =>
    let start_date := extract_start_date_from kv.2
    { files := [kv.1]
      start_date := start_date
      end_date := start_date + extract_expected_duration_from kv.2 })

/-- The sort key of `GroupFrameRanges._merge_groups` line 461: start date. -/
def rangeLe (a b : FrameRange) : Bool :=
  decide (a.start_date ≤ b.start_date)

/-- The loop body of `GroupFrameRanges._merge_groups` (lines 466-475). -/
def mergeRangeStep (time_without_frames : ℚ)
    (acc : List FrameRange × FrameRange) (current_range : FrameRange) :
    List FrameRange × FrameRange :=
  if current_range.start_date - acc.2.end_date ≤ time_without_frames then
    (acc.1, acc.2.merge current_range)
  else
    (acc.1 ++ [acc.2], current_range)

/-- `GroupFrameRanges._merge_groups` (lines 457-477): sort by start date,
then chain-merge like `Preprocess._merge_groups`. -/
def mergeRanges (time_without_frames : ℚ) (all_ranges : List FrameRange) :
    List FrameRange :=
  match all_ranges.mergeSort rangeLe with
  | [] => []
  | r :: rest =>
    let res := rest.foldl (mergeRangeStep time_without_frames) ([], r)
    res.1 ++ [res.2]

/-- `GroupFrameRanges.group_files` (lines 439-443). -/
def group_files (time_without_frames : ℚ) (input : List (String × VideoMeta)) :
    List FrameRange :=
  let all_groups := parse_frame_ranges input
  if all_groups.length = 0 then []
  else mergeRanges time_without_frames all_groups

/-! ## Support definitions for the claims -/

/-- The identifying content of an output feature: everything the emission
writes except the later-attached `max_class`. -/
def featKey (f : Feature) : List (ℚ × ℚ) × ℚ × ℕ × ℤ :=
  (f.coordinates, f.max_conf, f.ID, f.start_frame)

/-- The feature content an exiting track would produce. -/
def trackFeatKey (t : Track) : List (ℚ × ℚ) × ℚ × ℕ × ℤ :=
  (t.ctr, t.max_conf, t.vehID, t.frames.headD 0)

/-- A frame with its number erased: the payload `derive_frame_number`
preserves. -/
def frameContent (f : PFrame) : ℚ × String × List PDetection :=
  (f.occurrence, f.input_file_path, f.detections)

/-- Pure view of the renumbering loop of `FrameGroup._merge`: each frame of
the list gets the next number after `last`. -/
def renum : List PFrame → ℤ → List PFrame
  | [], _ => []
  | f :: fs, last => f.derive_frame_number (last + 1) :: renum fs (last + 1)

/-- All per-frame confidences of a track are at least `sigma_l`. -/
def TrackConfGe (sigma_l : ℚ) (t : Track) : Prop :=
  ∀ c ∈ t.conf, sigma_l ≤ c

/-- The detection value of one per-frame output entry. -/
def detOf (p : ℕ × OutDet) : Det :=
  p.2.det

/-- The running correspondence between emitted features, emitted ids and the
mid-run exit log: the features (and the finished ids) are exactly the images
of the exits that satisfy the finalization condition. -/
def emitInv (sigma_h t_min : ℚ) (feats : List Feature) (fin : List ℕ)
    (ex : List Track) : Prop :=
  feats.map featKey = (ex.filter (finalCond sigma_h t_min)).map trackFeatKey ∧
  fin = (ex.filter (finalCond sigma_h t_min)).map Track.vehID

/-- Every confidence recorded anywhere in the per-frame loop state is at
least `sigma_l`. -/
def frameStateConfGe (sigma_l : ℚ) (s : FrameState) : Prop :=
  (∀ d ∈ s.dets, sigma_l ≤ d.conf) ∧ (∀ p ∈ s.outs, sigma_l ≤ (detOf p).conf) ∧
  (∀ t ∈ s.updated, TrackConfGe sigma_l t) ∧ (∀ t ∈ s.saved, TrackConfGe sigma_l t) ∧
  (∀ t ∈ s.exitedMid, TrackConfGe sigma_l t)

/-- Every confidence recorded anywhere in the cross-frame run state is at
least `sigma_l`. -/
def runStateConfGe (sigma_l : ℚ) (st : RunState) : Prop :=
  (∀ t ∈ st.pool, TrackConfGe sigma_l t) ∧
  (∀ e ∈ st.newDets, ∀ p ∈ e.2, sigma_l ≤ (detOf p).conf) ∧
  (∀ t ∈ st.exitedMid, TrackConfGe sigma_l t)

/-- Concrete detection: class car at (10, 10), confidence 0.9. -/
def detCar : Det :=
  { x := 10, y := 10, w := 4, h := 4, conf := 9/10, cls := "car" }

/-- Concrete detection: class bike at (100, 100), disjoint from `detCar`,
confidence 0.9. -/
def detBike : Det :=
  { x := 100, y := 100, w := 4, h := 4, conf := 9/10, cls := "bike" }

/-- Concrete detection with sub-threshold confidence 0.25. -/
def detLow : Det :=
  { x := 1, y := 1, w := 1, h := 1, conf := 1/4, cls := "car" }

/-- Three frames, each with one car and one bike detection at fixed disjoint
positions: two parallel tracks. -/
def inpTwoTracks : List (ℤ × List Det) :=
  [(1, [detCar, detBike]), (2, [detCar, detBike]), (3, [detCar, detBike])]

/-- A single frame holding only a sub-threshold detection. -/
def inpSingleLow : List (ℤ × List Det) :=
  [(1, [detLow])]

/-- Three frames with the same car detection: one track spanning frames
1 to 3. -/
def inpSingleTrack : List (ℤ × List Det) :=
  [(1, [detCar]), (2, [detCar]), (3, [detCar])]

/-- One frame with one eligible and one sub-threshold detection. -/
def inpMixed : List (ℤ × List Det) :=
  [(1, [detCar, detLow])]

/-- Three frames with the car detection followed by three empty frames, so
that with `t_miss_max = 1` the track expires and is finalized mid-run. -/
def inpMidRun : List (ℤ × List Det) :=
  [(1, [detCar]), (2, [detCar]), (3, [detCar]), (4, []), (5, []), (6, [])]

/-- The tracker result on `inpSingleTrack` with `sigma_h` exactly the peak
confidence and `t_min` exactly the span (boundary-inclusive emission). -/
def resBoundary : TrackIouResult :=
  (track_iou (1/10) (9/10) (3/10) 2 2 inpSingleTrack).toOption.getD default

/-- The tracker result on `inpSingleTrack` where the track qualifies and is
emitted only at end of input. -/
def resSingleTrack : TrackIouResult :=
  (track_iou (1/10) (1/2) (3/10) 1 5 inpSingleTrack).toOption.getD default

/-- The tracker result on `inpMixed` with `sigma_l = 1/2`. -/
def resMixed : TrackIouResult :=
  (track_iou (1/2) (1/2) (3/10) 1 2 inpMixed).toOption.getD default

/-- The tracker result on `inpMidRun` where the track is finalized mid-run. -/
def resMidRun : TrackIouResult :=
  (track_iou (1/10) (1/2) (3/10) 1 1 inpMidRun).toOption.getD default

/-- A frame group with one frame at second 0 (frames numbered from 1). -/
def g61A : FrameGroup :=
  { frames := [{ frame := 1, occurrence := 0, input_file_path := "d/a.otdet",
                 detections := [] }], order_key := "d" }

/-- A frame group whose recording starts 61 seconds after `g61A` ends. -/
def g61B : FrameGroup :=
  { frames := [{ frame := 1, occurrence := 61, input_file_path := "d/b.otdet",
                 detections := [] }], order_key := "d" }

/-- A frame group whose recording starts exactly 60 seconds after `g61A`
ends. -/
def g60B : FrameGroup :=
  { frames := [{ frame := 1, occurrence := 60, input_file_path := "d/c.otdet",
                 detections := [] }], order_key := "d" }

/-- A frame group with two frames numbered 1, 2. -/
def grpA5 : FrameGroup :=
  { frames := [{ frame := 1, occurrence := 0, input_file_path := "d/a.otdet",
                 detections := [] },
               { frame := 2, occurrence := 1, input_file_path := "d/a.otdet",
                 detections := [] }], order_key := "d" }

/-- A later frame group with one frame carrying an arbitrary number. -/
def grpB5 : FrameGroup :=
  { frames := [{ frame := 7, occurrence := 100, input_file_path := "d/b.otdet",
                 detections := [] }], order_key := "d" }

/-- A frame range starting at 0 and ending at 100. -/
def rngA : FrameRange :=
  { files := ["a.otdet"], start_date := 0, end_date := 100 }

/-- A frame range starting after `rngA` but ending before it. -/
def rngB : FrameRange :=
  { files := ["b.otdet"], start_date := 10, end_date := 20 }

/-! ## Helper lemmas -/

theorem foldl_preserves {α β : Type _} {P : β → Prop} (f : β → α → β) :
    ∀ (l : List α), (∀ b a, a ∈ l → P b → P (f b a)) →
      ∀ b, P b → P (l.foldl f b) := by
  intro l
  induction l with
  | nil => intro _ b hb; simpa using hb
  | cons a t ih =>
    intro hf b hb
    simp only [List.foldl_cons]
    exact ih (fun b1 a1 ha1 => hf b1 a1 (by simp [ha1])) (f b a) (hf b a (by simp) hb)

theorem foldl_pick_mem (key : Det → ℚ) :
    ∀ (t : List Det) (a : Det),
      t.foldl (fun best x => if key best < key x then x else best) a ∈ a :: t := by
  intro t
  induction t with
  | nil => intro a; simp
  | cons x xs ih =>
    intro a
    simp only [List.foldl_cons]
    by_cases hc : key a < key x
    · simp only [if_pos hc]
      exact List.mem_cons_of_mem _ (ih x)
    · simp only [if_neg hc]
      rcases List.mem_cons.mp (ih a) with h | h
      · simp [h]
      · simp [List.mem_cons_of_mem, h]

theorem maxByKeyQ_mem (key : Det → ℚ) (l : List Det) (d : Det)
    (h : maxByKeyQ key l = some d) : d ∈ l := by
  cases l with
  | nil => simp [maxByKeyQ] at h
  | cons a t =>
    simp only [maxByKeyQ, Option.some.injEq] at h
    subst h
    exact foldl_pick_mem key t a

theorem exceptOk_of_toOption {ε α : Type _} (e : Except ε α) (r : α)
    (h : e.toOption = some r) : e = .ok r := by
  cases e with
  | ok v =>
    simp only [Except.toOption, Option.some.injEq] at h
    simp [h]
  | error _ => simp [Except.toOption] at h

/-! ## C8: empty input -/

/-- C8: on empty input the core returns empty results without raising:
`Preprocess.process` on an empty mapping yields no frame groups and empty
metadata, and `GroupFrameRanges.group_files` on an empty mapping yields no
frame ranges. -/
theorem C8_empty_input_returns_empty (tw : ℚ) (fo : ℤ) :
    Preprocess.process tw [] fo = ([], []) ∧ group_files tw [] = [] := by
  constructor <;> rfl

/-! ## C10: FrameRange.merge -/

/-- C10: for two frame ranges with distinct start dates, `merge` (in either
application order) returns the earlier-starting range's files followed by the
later-starting range's files, the earlier start date, and the end date of the
later-starting range; in particular when the earlier-starting range ends
after the later-starting one the merged end date is earlier than that input's
end date (no maximum is taken). -/
theorem C10_range_merge (a b : FrameRange) (h : a.start_date < b.start_date) :
    a.merge b = { files := a.files ++ b.files, start_date := a.start_date,
                  end_date := b.end_date } ∧
    b.merge a = { files := a.files ++ b.files, start_date := a.start_date,
                  end_date := b.end_date } ∧
    (a.merge b).start_date = min a.start_date b.start_date ∧
    (b.end_date < a.end_date → (a.merge b).end_date < a.end_date) := by
  have hnot : ¬ b.start_date < a.start_date := not_lt.mpr (le_of_lt h)
  refine ⟨?_, ?_, ?_, ?_⟩
  · simp [FrameRange.merge, FrameRange.mergeOrdered, h]
  · simp [FrameRange.merge, FrameRange.mergeOrdered, hnot]
  · simp [FrameRange.merge, FrameRange.mergeOrdered, h, min_eq_left (le_of_lt h)]
  · intro he
    simpa [FrameRange.merge, FrameRange.mergeOrdered, h] using he

/-- Witness for C10 at concrete ranges where the earlier-starting range ends
last, so the merged end date is strictly earlier than that input's end. -/
theorem C10_range_merge_witness :
    rngA.merge rngB = { files := rngA.files ++ rngB.files,
                        start_date := rngA.start_date,
                        end_date := rngB.end_date } ∧
    rngB.merge rngA = { files := rngA.files ++ rngB.files,
                        start_date := rngA.start_date,
                        end_date := rngB.end_date } ∧
    (rngA.merge rngB).start_date = min rngA.start_date rngB.start_date ∧
    (rngA.merge rngB).end_date < rngA.end_date :=
  ⟨(C10_range_merge rngA rngB (by norm_num [rngA, rngB])).1,
   (C10_range_merge rngA rngB (by norm_num [rngA, rngB])).2.1,
   (C10_range_merge rngA rngB (by norm_num [rngA, rngB])).2.2.1,
   (C10_range_merge rngA rngB (by norm_num [rngA, rngB])).2.2.2
     (by norm_num [rngA, rngB])⟩

/-! ## C6: merge policy of Preprocess -/

theorem foldl_mergeGroupStep_append (tw : ℚ) :
    ∀ (rest : List FrameGroup) (pre acc : List FrameGroup) (cur : FrameGroup),
      rest.foldl (mergeGroupStep tw) (pre ++ acc, cur) =
        (pre ++ (rest.foldl (mergeGroupStep tw) (acc, cur)).1,
         (rest.foldl (mergeGroupStep tw) (acc, cur)).2) := by
  intro rest
  induction rest with
  | nil => intro pre acc cur; rfl
  | cons c t ih =>
    intro pre acc cur
    simp only [List.foldl_cons, mergeGroupStep]
    by_cases h : c.start_date - cur.end_date ≤ tw
    · simp only [if_pos h]
      exact ih pre acc (cur.merge c)
    · simp only [if_neg h, List.append_assoc]
      exact ih pre (acc ++ [cur]) c

unseal Rat.add Rat.sub Rat.mul Rat.inv in
/-- C6: `Preprocess._merge_groups` processes the candidate groups in
encounter order and merges a candidate into the current chain exactly when
the candidate's start minus the chain's end is at most `time_without_frames`
(inclusive); concretely a gap of exactly 60 seconds merges under a
60-second tolerance while a gap of 61 seconds yields two separate groups. -/
theorem C6_merge_policy_encounter_order :
    (∀ (tw : ℚ) (a b : FrameGroup) (rest : List FrameGroup),
        mergeGroups tw (a :: b :: rest) =
          if b.start_date - a.end_date ≤ tw then
            mergeGroups tw (a.merge b :: rest)
          else a :: mergeGroups tw (b :: rest)) ∧
    mergeGroups 60 [g61A, g61B] = [g61A, g61B] ∧
    mergeGroups 60 [g61A, g60B] = [g61A.merge g60B] := by
  refine ⟨?_, by decide, by decide⟩
  intro tw a b rest
  by_cases h : b.start_date - a.end_date ≤ tw
  · simp only [if_pos h, mergeGroups, List.foldl_cons, mergeGroupStep, if_pos h]
  · simp only [if_neg h, mergeGroups, List.foldl_cons, mergeGroupStep, List.nil_append]
    have hpre := foldl_mergeGroupStep_append tw rest [a] [] b
    simp only [List.append_nil] at hpre
    rw [hpre]
    simp

/-! ## C2: the max_class pass reads a stale loop variable -/

unseal Rat.add Rat.sub Rat.mul Rat.inv in
/-- C2 (code bug): on two parallel tracks with class modes car and bike,
every emitted feature gets `max_class` bike, the class mode of the last
iterated track, although the feature with ID 1 belongs to the track whose
own class mode is car; `track_iou` does not use each feature's own track. -/
theorem C2_max_class_stale_binding :
    (track_iou (3/10) (1/2) (3/10) 2 3 inpTwoTracks).toOption.map
      (fun r => (r.features.map (fun f => (f.ID, f.max_class)),
                 r.exited.map (fun t => (t.vehID, seriesMode t.cls)))) =
    some ([(1, some "bike"), (2, some "bike")],
          [(1, some "car"), (2, some "bike")]) := by
  decide

/-! ## C3: sub-threshold detections are dropped from the output -/

unseal Rat.add Rat.sub Rat.mul Rat.inv in
/-- Counterexample to C3: the input frame holds one detection (confidence
1/4, below `sigma_l = 1/2`), but the per-frame output of `track_iou` for
that frame is empty: the original detection is not carried through. -/
theorem C3_counterexample_subthreshold_dropped :
    inpSingleLow.map (fun e => (e.1, e.2.length)) = [(1, 1)] ∧
    (track_iou (1/2) 1 (1/2) 1 0 inpSingleLow).toOption.map
      (fun r => r.newDets) = some [(1, [])] := by
  exact ⟨rfl, by decide⟩

/-! ## C4: end-of-input emissions are not flagged -/

unseal Rat.add Rat.sub Rat.mul Rat.inv in
/-- Counterexample to C4: a track emitted at end of input (its feature has
ID 1) whose ID is missing from the returned `vehIDs_finished` and whose
output detections all carry `finished = false`, contradicting the claimed
equivalence between the finished flag and emission. -/
theorem C4_counterexample_end_emission_unflagged :
    (track_iou (1/10) (1/2) (3/10) 1 5 inpSingleTrack).toOption.map
      (fun r => (r.features.map Feature.ID, r.vehIDs_finished,
        r.newDets.map (fun e => e.2.map (fun p => (p.1, p.2.finished))))) =
    some ([1], [], [[(1, false)], [(1, false)], [(1, false)]]) := by
  decide

/-! ## C1 and C4: emission of features and the finished ids -/

theorem featKey_rawFeature (t : Track) : featKey (rawFeature t) = trackFeatKey t :=
  rfl

theorem agePhase_emitInv (sigma_h t_min : ℚ) (tmm : ℕ) (s : FrameState) (track : Track)
    (h : emitInv sigma_h t_min s.feats s.finished s.exitedMid) :
    emitInv sigma_h t_min (agePhase sigma_h t_min tmm s track).feats
      (agePhase sigma_h t_min tmm s track).finished
      (agePhase sigma_h t_min tmm s track).exitedMid := by
  unfold agePhase
  split_ifs with h1 h2
  · exact h
  · refine ⟨?_, ?_⟩
    · rw [List.map_append, List.filter_append, List.map_append, h.1]
      simp [h2, featKey_rawFeature]
    · rw [List.filter_append, List.map_append, ← h.2]
      simp [h2]
  · refine ⟨?_, ?_⟩
    · rw [List.filter_append]
      simp [h2, h.1]
    · rw [List.filter_append]
      simp [h2, h.2]

theorem trackStep_emitInv (sigma_iou sigma_h t_min : ℚ) (tmm : ℕ) (fn : ℤ)
    (s : FrameState) (track : Track)
    (h : emitInv sigma_h t_min s.feats s.finished s.exitedMid) :
    emitInv sigma_h t_min (trackStep sigma_iou sigma_h t_min tmm fn s track).feats
      (trackStep sigma_iou sigma_h t_min tmm fn s track).finished
      (trackStep sigma_iou sigma_h t_min tmm fn s track).exitedMid := by
  unfold trackStep
  dsimp only
  cases hm : maxByKeyQ (fun x => iou (lastBbox track) (make_bbox x)) s.dets with
  | none => exact agePhase_emitInv sigma_h t_min tmm _ track h
  | some best =>
    by_cases hiou : sigma_iou ≤ iou (lastBbox track) (make_bbox best)
    · simp only [if_pos hiou]
      exact h
    · simp only [if_neg hiou]
      exact agePhase_emitInv sigma_h t_min tmm _ track h

theorem processFrame_emitInv (sigma_l sigma_h sigma_iou t_min : ℚ) (tmm : ℕ)
    (st : RunState) (fr : ℤ × List Det)
    (h : emitInv sigma_h t_min st.feats st.finished st.exitedMid) :
    emitInv sigma_h t_min (processFrame sigma_l sigma_h sigma_iou t_min tmm st fr).feats
      (processFrame sigma_l sigma_h sigma_iou t_min tmm st fr).finished
      (processFrame sigma_l sigma_h sigma_iou t_min tmm st fr).exitedMid := by
  unfold processFrame frameFold
  dsimp only
  exact @foldl_preserves _ _
    (fun s => emitInv sigma_h t_min s.feats s.finished s.exitedMid) _ st.pool
    (fun b a _ hb => trackStep_emitInv sigma_iou sigma_h t_min tmm fr.1 b a hb)
    (frameInit sigma_l st fr) h

theorem core_emit_spec (sigma_l sigma_h sigma_iou t_min : ℚ) (tmm : ℕ)
    (input : List (ℤ × List Det)) :
    (track_iou_core sigma_l sigma_h sigma_iou t_min tmm input).rawFeats.map featKey =
      ((track_iou_core sigma_l sigma_h sigma_iou t_min tmm input).exited.filter
        (finalCond sigma_h t_min)).map trackFeatKey ∧
    (track_iou_core sigma_l sigma_h sigma_iou t_min tmm input).vehIDs_finished =
      ((track_iou_core sigma_l sigma_h sigma_iou t_min tmm input).exitedMid.filter
        (finalCond sigma_h t_min)).map Track.vehID := by
  have hrun := @foldl_preserves _ _
    (fun st : RunState => emitInv sigma_h t_min st.feats st.finished st.exitedMid)
    (processFrame sigma_l sigma_h sigma_iou t_min tmm) input
    (fun b a _ hb => processFrame_emitInv sigma_l sigma_h sigma_iou t_min tmm b a hb)
    initState ⟨rfl, rfl⟩
  unfold track_iou_core
  dsimp only
  constructor
  · rw [List.map_append, hrun.1, List.filter_append, List.map_append, List.map_map]
    rfl
  · exact hrun.2

theorem track_iou_ok_fields (sigma_l sigma_h sigma_iou t_min : ℚ) (tmm : ℕ)
    (input : List (ℤ × List Det)) (r : TrackIouResult)
    (h : track_iou sigma_l sigma_h sigma_iou t_min tmm input = Except.ok r) :
    r.newDets = (track_iou_core sigma_l sigma_h sigma_iou t_min tmm input).newDets ∧
    r.vehIDs_finished =
      (track_iou_core sigma_l sigma_h sigma_iou t_min tmm input).vehIDs_finished ∧
    r.exited = (track_iou_core sigma_l sigma_h sigma_iou t_min tmm input).exited ∧
    r.exitedMid = (track_iou_core sigma_l sigma_h sigma_iou t_min tmm input).exitedMid ∧
    r.features.map featKey =
      (track_iou_core sigma_l sigma_h sigma_iou t_min tmm input).rawFeats.map featKey := by
  unfold track_iou at h
  dsimp only at h
  by_cases he : (track_iou_core sigma_l sigma_h sigma_iou t_min tmm input).rawFeats.isEmpty
  · rw [if_pos he] at h
    injection h with hr
    subst hr
    have hnil : (track_iou_core sigma_l sigma_h sigma_iou t_min tmm input).rawFeats = [] := by
      simpa using he
    exact ⟨rfl, rfl, rfl, rfl, by simp [hnil]⟩
  · rw [if_neg he] at h
    cases hlk : (((track_iou_core sigma_l sigma_h sigma_iou t_min tmm input).lastIter.bind
        (fun v => lookupTrack v
          (track_iou_core sigma_l sigma_h sigma_iou t_min tmm input).exited)).bind
        (fun t => seriesMode t.cls)) with
    | none =>
      rw [hlk] at h
      exact absurd h (by simp)
    | some m =>
      rw [hlk] at h
      injection h with hr
      subst hr
      refine ⟨rfl, rfl, rfl, rfl, ?_⟩
      rw [List.map_map]
      rfl

/-- C1: a track is emitted as a feature in the returned collection if and
only if, at the moment it leaves the active pool (into the ghost exit log
`exited`, whether by mid-run miss-age expiry or at end of input), its running
maximum confidence is at least `sigma_h` and its frame span is at least
`t_min` (both inclusive, `finalCond`): the returned features are exactly the
images of the exits satisfying `finalCond`, in order. -/
theorem C1_emission_iff_thresholds (sigma_l sigma_h sigma_iou t_min : ℚ) (tmm : ℕ)
    (input : List (ℤ × List Det)) (r : TrackIouResult)
    (h : track_iou sigma_l sigma_h sigma_iou t_min tmm input = Except.ok r) :
    r.features.map featKey =
      (r.exited.filter (finalCond sigma_h t_min)).map trackFeatKey := by
  obtain ⟨-, -, hex, -, hfeat⟩ :=
    track_iou_ok_fields sigma_l sigma_h sigma_iou t_min tmm input r h
  rw [hfeat, hex]
  exact (core_emit_spec sigma_l sigma_h sigma_iou t_min tmm input).1

unseal Rat.add Rat.sub Rat.mul Rat.inv in
/-- Witness for C1 at an input whose single track sits exactly on both
thresholds (peak confidence `9/10 = sigma_h`, span `2 = t_min`) and is
emitted. -/
theorem C1_emission_iff_thresholds_witness :
    track_iou (1/10) (9/10) (3/10) 2 2 inpSingleTrack = Except.ok resBoundary ∧
    resBoundary.features.map featKey =
      (resBoundary.exited.filter (finalCond (9/10) 2)).map trackFeatKey := by
  have h0 : (track_iou (1/10) (9/10) (3/10) 2 2 inpSingleTrack).toOption =
      some resBoundary := by decide
  have h := exceptOk_of_toOption _ _ h0
  exact ⟨h, C1_emission_iff_thresholds (1/10) (9/10) (3/10) 2 2 inpSingleTrack resBoundary h⟩

theorem setFinished_flag (fin : List ℕ) (nd : List (ℤ × List (ℕ × OutDet))) :
    ∀ e ∈ setFinished fin nd, ∀ p ∈ e.2, p.2.finished = decide (p.1 ∈ fin) := by
  intro e he p hp
  unfold setFinished at he
  rcases List.mem_map.mp he with ⟨fd, _, rfl⟩
  rcases List.mem_map.mp hp with ⟨q, _, rfl⟩
  rfl

/-- C4 (amended): a detection's `finished` flag is true exactly when its
owning track id is in the returned `vehIDs_finished`, and `vehIDs_finished`
contains exactly the ids of the tracks finalized mid-run on miss-age expiry
(the mid-run exits satisfying `finalCond`); tracks emitted only at end of
input are not flagged and their ids are not listed. -/
theorem C4_finished_flags_mid_run_only (sigma_l sigma_h sigma_iou t_min : ℚ) (tmm : ℕ)
    (input : List (ℤ × List Det)) (r : TrackIouResult)
    (h : track_iou sigma_l sigma_h sigma_iou t_min tmm input = Except.ok r) :
    (r.newDets.all (fun e => e.2.all
      (fun p => p.2.finished == decide (p.1 ∈ r.vehIDs_finished)))) = true ∧
    r.vehIDs_finished =
      (r.exitedMid.filter (finalCond sigma_h t_min)).map Track.vehID := by
  obtain ⟨hnd, hfin, -, hexm, -⟩ :=
    track_iou_ok_fields sigma_l sigma_h sigma_iou t_min tmm input r h
  constructor
  · rw [List.all_eq_true]
    intro e he
    rw [List.all_eq_true]
    intro p hp
    rw [hnd] at he
    have := setFinished_flag
      (track_iou_core sigma_l sigma_h sigma_iou t_min tmm input).vehIDs_finished
      _ e he p hp
    rw [this, hfin]
    simp
  · rw [hfin, hexm]
    exact (core_emit_spec sigma_l sigma_h sigma_iou t_min tmm input).2

unseal Rat.add Rat.sub Rat.mul Rat.inv in
/-- Witness for C4 (amended) at an input whose track is finalized mid-run,
so its detections are flagged and its id listed. -/
theorem C4_finished_flags_mid_run_only_witness :
    track_iou (1/10) (1/2) (3/10) 1 1 inpMidRun = Except.ok resMidRun ∧
    ((resMidRun.newDets.all (fun e => e.2.all
        (fun p => p.2.finished == decide (p.1 ∈ resMidRun.vehIDs_finished)))) = true ∧
      resMidRun.vehIDs_finished =
        (resMidRun.exitedMid.filter (finalCond (1/2) 1)).map Track.vehID) := by
  have h0 : (track_iou (1/10) (1/2) (3/10) 1 1 inpMidRun).toOption =
      some resMidRun := by decide
  have h := exceptOk_of_toOption _ _ h0
  exact ⟨h, C4_finished_flags_mid_run_only (1/10) (1/2) (3/10) 1 1 inpMidRun resMidRun h⟩

/-! ## C3: the per-frame output is exactly the eligible detections -/

theorem agePhase_outs (sigma_h t_min : ℚ) (tmm : ℕ) (s : FrameState) (track : Track) :
    (agePhase sigma_h t_min tmm s track).outs = s.outs := by
  unfold agePhase
  split_ifs <;> rfl

theorem agePhase_dets (sigma_h t_min : ℚ) (tmm : ℕ) (s : FrameState) (track : Track) :
    (agePhase sigma_h t_min tmm s track).dets = s.dets := by
  unfold agePhase
  split_ifs <;> rfl

theorem trackStep_outsPerm (sigma_iou sigma_h t_min : ℚ) (tmm : ℕ) (fn : ℤ)
    (D0 : List Det) (s : FrameState) (track : Track)
    (h : ((s.outs.map detOf) ++ s.dets).Perm D0) :
    (((trackStep sigma_iou sigma_h t_min tmm fn s track).outs.map detOf) ++
      (trackStep sigma_iou sigma_h t_min tmm fn s track).dets).Perm D0 := by
  unfold trackStep
  dsimp only
  cases hm : maxByKeyQ (fun x => iou (lastBbox track) (make_bbox x)) s.dets with
  | none =>
    rw [agePhase_outs, agePhase_dets]
    exact h
  | some best =>
    by_cases hiou : sigma_iou ≤ iou (lastBbox track) (make_bbox best)
    · simp only [if_pos hiou]
      have hmem : best ∈ s.dets := maxByKeyQ_mem _ _ _ hm
      have h1 : (best :: s.dets.erase best).Perm s.dets :=
        (List.perm_cons_erase hmem).symm
      have h2 := (List.Perm.append_left (s.outs.map detOf) h1).trans h
      simpa [detOf, List.append_assoc] using h2
    · simp only [if_neg hiou]
      rw [agePhase_outs, agePhase_dets]
      exact h

theorem frameFold_outsPerm (sigma_l sigma_h sigma_iou t_min : ℚ) (tmm : ℕ)
    (st : RunState) (fr : ℤ × List Det) :
    (((frameFold sigma_l sigma_h sigma_iou t_min tmm st fr).outs.map detOf) ++
      (frameFold sigma_l sigma_h sigma_iou t_min tmm st fr).dets).Perm
      (fr.2.filter (fun d => decide (sigma_l ≤ d.conf))) := by
  unfold frameFold
  exact @foldl_preserves _ _
    (fun s : FrameState => ((s.outs.map detOf) ++ s.dets).Perm
      (fr.2.filter (fun d => decide (sigma_l ≤ d.conf)))) _ st.pool
    (fun b a _ hb => trackStep_outsPerm sigma_iou sigma_h t_min tmm fr.1 _ b a hb)
    (frameInit sigma_l st fr) (by simp [frameInit])

theorem newfold_outs (fn : ℤ) :
    ∀ (ds : List Det) (ns : NewState),
      ((ds.foldl (newTrackStep fn) ns).outs).map detOf = ns.outs.map detOf ++ ds := by
  intro ds
  induction ds with
  | nil => intro ns; simp
  | cons d t ih =>
    intro ns
    simp only [List.foldl_cons]
    rw [ih]
    simp [newTrackStep, detOf]

theorem processFrame_newDets_eq (sigma_l sigma_h sigma_iou t_min : ℚ) (tmm : ℕ)
    (st : RunState) (fr : ℤ × List Det) :
    (processFrame sigma_l sigma_h sigma_iou t_min tmm st fr).newDets =
      st.newDets ++ [(fr.1,
        (frameFold sigma_l sigma_h sigma_iou t_min tmm st fr).outs ++
          (newFold st.vehID fr.1
            (frameFold sigma_l sigma_h sigma_iou t_min tmm st fr).dets).outs)] :=
  rfl

theorem processFrame_entry_perm (sigma_l sigma_h sigma_iou t_min : ℚ) (tmm : ℕ)
    (st : RunState) (fr : ℤ × List Det) :
    (((frameFold sigma_l sigma_h sigma_iou t_min tmm st fr).outs ++
        (newFold st.vehID fr.1
          (frameFold sigma_l sigma_h sigma_iou t_min tmm st fr).dets).outs).map
      detOf).Perm (fr.2.filter (fun d => decide (sigma_l ≤ d.conf))) := by
  rw [List.map_append]
  unfold newFold
  rw [newfold_outs]
  simpa using frameFold_outsPerm sigma_l sigma_h sigma_iou t_min tmm st fr

theorem run_newDets_spec (sigma_l sigma_h sigma_iou t_min : ℚ) (tmm : ℕ) :
    ∀ (input : List (ℤ × List Det)) (st : RunState),
      ∃ L, (input.foldl (processFrame sigma_l sigma_h sigma_iou t_min tmm) st).newDets =
          st.newDets ++ L ∧
        L.map (fun e => (e.1, ((e.2.map detOf : List Det) : Multiset Det))) =
          input.map (fun e => (e.1,
            ((e.2.filter (fun d => decide (sigma_l ≤ d.conf)) : List Det) :
              Multiset Det))) := by
  intro input
  induction input with
  | nil => intro st; exact ⟨[], by simp, rfl⟩
  | cons fr rest ih =>
    intro st
    obtain ⟨L, hL, hLm⟩ := ih (processFrame sigma_l sigma_h sigma_iou t_min tmm st fr)
    refine ⟨(fr.1,
        (frameFold sigma_l sigma_h sigma_iou t_min tmm st fr).outs ++
          (newFold st.vehID fr.1
            (frameFold sigma_l sigma_h sigma_iou t_min tmm st fr).dets).outs) :: L,
      ?_, ?_⟩
    · rw [List.foldl_cons, hL, processFrame_newDets_eq]
      simp
    · simp only [List.map_cons]
      rw [hLm]
      congr 1
      exact congrArg (fun m => (fr.1, m))
        (Multiset.coe_eq_coe.mpr
          (processFrame_entry_perm sigma_l sigma_h sigma_iou t_min tmm st fr))

theorem setFinished_multiset (fin : List ℕ) (nd : List (ℤ × List (ℕ × OutDet))) :
    (setFinished fin nd).map
        (fun e => (e.1, ((e.2.map detOf : List Det) : Multiset Det))) =
      nd.map (fun e => (e.1, ((e.2.map detOf : List Det) : Multiset Det))) := by
  unfold setFinished
  rw [List.map_map]
  apply List.map_congr_left
  intro fd _
  dsimp only [Function.comp]
  rw [List.map_map]
  rfl

/-- C3 (amended): for every frame, the per-frame output of `track_iou`
contains exactly the frame detections whose confidence is at least
`sigma_l` (as a multiset; matching may reorder them), each wrapped with its
`first` annotation; detections below `sigma_l` are dropped from the output,
not carried through. -/
theorem C3_output_is_eligible_detections (sigma_l sigma_h sigma_iou t_min : ℚ)
    (tmm : ℕ) (input : List (ℤ × List Det)) (r : TrackIouResult)
    (h : track_iou sigma_l sigma_h sigma_iou t_min tmm input = Except.ok r) :
    r.newDets.map (fun e => (e.1, ((e.2.map detOf : List Det) : Multiset Det))) =
      input.map (fun e => (e.1,
        ((e.2.filter (fun d => decide (sigma_l ≤ d.conf)) : List Det) :
          Multiset Det))) := by
  obtain ⟨hnd, -, -, -, -⟩ :=
    track_iou_ok_fields sigma_l sigma_h sigma_iou t_min tmm input r h
  obtain ⟨L, hL, hLm⟩ := run_newDets_spec sigma_l sigma_h sigma_iou t_min tmm input initState
  rw [hnd]
  unfold track_iou_core
  dsimp only
  rw [setFinished_multiset, hL]
  simpa [initState] using hLm

unseal Rat.add Rat.sub Rat.mul Rat.inv in
/-- Witness for C3 (amended) at a frame with one eligible and one
sub-threshold detection. -/
theorem C3_output_is_eligible_detections_witness :
    track_iou (1/2) (1/2) (3/10) 1 2 inpMixed = Except.ok resMixed ∧
    resMixed.newDets.map (fun e => (e.1, ((e.2.map detOf : List Det) : Multiset Det))) =
      inpMixed.map (fun e => (e.1,
        ((e.2.filter (fun d => decide ((1/2 : ℚ) ≤ d.conf)) : List Det) :
          Multiset Det))) := by
  have h0 : (track_iou (1/2) (1/2) (3/10) 1 2 inpMixed).toOption = some resMixed := by
    decide
  have h := exceptOk_of_toOption _ _ h0
  exact ⟨h, C3_output_is_eligible_detections (1/2) (1/2) (3/10) 1 2 inpMixed resMixed h⟩

/-! ## C7: only eligible detections are matched or recorded -/

theorem agePhase_confGe (sigma_l sigma_h t_min : ℚ) (tmm : ℕ) (s : FrameState)
    (track : Track) (ht : TrackConfGe sigma_l track) (h : frameStateConfGe sigma_l s) :
    frameStateConfGe sigma_l (agePhase sigma_h t_min tmm s track) := by
  obtain ⟨h1, h2, h3, h4, h5⟩ := h
  unfold agePhase
  split_ifs with hc1 hc2
  · refine ⟨h1, h2, h3, ?_, h5⟩
    intro t htm
    rcases List.mem_append.mp htm with hmem | hmem
    · exact h4 t hmem
    · cases List.mem_singleton.mp hmem
      exact ht
  · refine ⟨h1, h2, h3, h4, ?_⟩
    intro t htm
    rcases List.mem_append.mp htm with hmem | hmem
    · exact h5 t hmem
    · cases List.mem_singleton.mp hmem
      exact ht
  · refine ⟨h1, h2, h3, h4, ?_⟩
    intro t htm
    rcases List.mem_append.mp htm with hmem | hmem
    · exact h5 t hmem
    · cases List.mem_singleton.mp hmem
      exact ht

theorem trackStep_confGe (sigma_l sigma_iou sigma_h t_min : ℚ) (tmm : ℕ) (fn : ℤ)
    (s : FrameState) (track : Track)
    (ht : TrackConfGe sigma_l track) (h : frameStateConfGe sigma_l s) :
    frameStateConfGe sigma_l (trackStep sigma_iou sigma_h t_min tmm fn s track) := by
  unfold trackStep
  dsimp only
  cases hm : maxByKeyQ (fun x => iou (lastBbox track) (make_bbox x)) s.dets with
  | none => exact agePhase_confGe sigma_l sigma_h t_min tmm _ track ht h
  | some best =>
    by_cases hiou : sigma_iou ≤ iou (lastBbox track) (make_bbox best)
    · simp only [if_pos hiou]
      obtain ⟨h1, h2, h3, h4, h5⟩ := h
      have hbest : sigma_l ≤ best.conf := h1 best (maxByKeyQ_mem _ _ _ hm)
      refine ⟨?_, ?_, ?_, h4, h5⟩
      · intro d hd
        exact h1 d (List.mem_of_mem_erase hd)
      · intro p hp
        rcases List.mem_append.mp hp with hmem | hmem
        · exact h2 p hmem
        · cases List.mem_singleton.mp hmem
          exact hbest
      · intro t htm
        rcases List.mem_append.mp htm with hmem | hmem
        · exact h3 t hmem
        · cases List.mem_singleton.mp hmem
          intro c hc
          rcases List.mem_append.mp hc with hcc | hcc
          · exact ht c hcc
          · cases List.mem_singleton.mp hcc
            exact hbest
    · simp only [if_neg hiou]
      exact agePhase_confGe sigma_l sigma_h t_min tmm _ track ht h

theorem frameFold_confGe (sigma_l sigma_h sigma_iou t_min : ℚ) (tmm : ℕ)
    (st : RunState) (fr : ℤ × List Det)
    (hpool : ∀ t ∈ st.pool, TrackConfGe sigma_l t)
    (hex : ∀ t ∈ st.exitedMid, TrackConfGe sigma_l t) :
    frameStateConfGe sigma_l (frameFold sigma_l sigma_h sigma_iou t_min tmm st fr) := by
  unfold frameFold
  refine @foldl_preserves _ _ (frameStateConfGe sigma_l) _ st.pool
    (fun b a ha hb => trackStep_confGe sigma_l sigma_iou sigma_h t_min tmm fr.1 b a
      (hpool a ha) hb)
    (frameInit sigma_l st fr) ⟨?_, ?_, ?_, ?_, ?_⟩
  · intro d hd
    exact of_decide_eq_true (List.mem_filter.mp hd).2
  · intro p hp
    simp [frameInit] at hp
  · intro t htm
    simp [frameInit] at htm
  · intro t htm
    simp [frameInit] at htm
  · exact hex

theorem newfold_confGe (sigma_l : ℚ) (fn : ℤ) :
    ∀ (ds : List Det) (ns : NewState), (∀ d ∈ ds, sigma_l ≤ d.conf) →
      (∀ t ∈ ns.tracks, TrackConfGe sigma_l t) →
      (∀ p ∈ ns.outs, sigma_l ≤ (detOf p).conf) →
      (∀ t ∈ (ds.foldl (newTrackStep fn) ns).tracks, TrackConfGe sigma_l t) ∧
        (∀ p ∈ (ds.foldl (newTrackStep fn) ns).outs, sigma_l ≤ (detOf p).conf) := by
  intro ds
  induction ds with
  | nil => intro ns _ h1 h2; exact ⟨h1, h2⟩
  | cons d t ih =>
    intro ns hds h1 h2
    simp only [List.foldl_cons]
    apply ih
    · intro d2 hd2
      exact hds d2 (List.mem_cons_of_mem _ hd2)
    · intro t2 ht2
      unfold newTrackStep at ht2
      dsimp only at ht2
      rcases List.mem_append.mp ht2 with hmem | hmem
      · exact h1 t2 hmem
      · cases List.mem_singleton.mp hmem
        intro c hc
        cases List.mem_singleton.mp hc
        exact hds d (List.mem_cons_self _ _)
    · intro p hp
      unfold newTrackStep at hp
      dsimp only at hp
      rcases List.mem_append.mp hp with hmem | hmem
      · exact h2 p hmem
      · cases List.mem_singleton.mp hmem
        exact hds d (List.mem_cons_self _ _)

theorem processFrame_confGe (sigma_l sigma_h sigma_iou t_min : ℚ) (tmm : ℕ)
    (st : RunState) (fr : ℤ × List Det) (h : runStateConfGe sigma_l st) :
    runStateConfGe sigma_l (processFrame sigma_l sigma_h sigma_iou t_min tmm st fr) := by
  obtain ⟨h1, h2, h3⟩ := h
  obtain ⟨f1, f2, f3, f4, f5⟩ :=
    frameFold_confGe sigma_l sigma_h sigma_iou t_min tmm st fr h1 h3
  have hns := newfold_confGe sigma_l fr.1
    (frameFold sigma_l sigma_h sigma_iou t_min tmm st fr).dets
    { vehID := st.vehID, tracks := [], outs := [] } f1
    (by intro t htm; simp at htm) (by intro p hp; simp at hp)
  unfold processFrame
  dsimp only
  refine ⟨?_, ?_, f5⟩
  · intro t htm
    simp only [List.mem_append] at htm
    rcases htm with (hmem | hmem) | hmem
    · exact f3 t hmem
    · exact f4 t hmem
    · exact hns.1 t hmem
  · intro e he
    rcases List.mem_append.mp he with hmem | hmem
    · exact h2 e hmem
    · cases List.mem_singleton.mp hmem
      intro p hp
      rcases List.mem_append.mp hp with hp2 | hp2
      · exact f2 p hp2
      · exact hns.2 p hp2

/-- C7: the eligibility filter invariant of `track_iou`: every detection
recorded in the per-frame output (matched to a track or starting a new one)
has confidence at least `sigma_l`, and every confidence in the history of
every track that ever existed (the ghost exit log covers all of them) is at
least `sigma_l` — a detection below `sigma_l` is never chosen as a best
match and never starts a track. -/
theorem C7_eligibility_filter (sigma_l sigma_h sigma_iou t_min : ℚ) (tmm : ℕ)
    (input : List (ℤ × List Det)) :
    ((track_iou_core sigma_l sigma_h sigma_iou t_min tmm input).newDets.all
      (fun e => e.2.all (fun p => decide (sigma_l ≤ (detOf p).conf))) = true) ∧
    ((track_iou_core sigma_l sigma_h sigma_iou t_min tmm input).exited.all
      (fun t => t.conf.all (fun c => decide (sigma_l ≤ c))) = true) := by
  have hrun := @foldl_preserves _ _ (runStateConfGe sigma_l)
    (processFrame sigma_l sigma_h sigma_iou t_min tmm) input
    (fun b a _ hb => processFrame_confGe sigma_l sigma_h sigma_iou t_min tmm b a hb)
    initState
    ⟨by intro t htm; simp [initState] at htm,
     by intro e he; simp [initState] at he,
     by intro t htm; simp [initState] at htm⟩
  obtain ⟨hp, hn, he⟩ := hrun
  unfold track_iou_core
  dsimp only
  constructor
  · rw [List.all_eq_true]
    intro e hee
    rw [List.all_eq_true]
    intro p hpp
    rw [decide_eq_true_eq]
    unfold setFinished at hee
    rcases List.mem_map.mp hee with ⟨fd, hfd, rfl⟩
    rcases List.mem_map.mp hpp with ⟨q, hq, rfl⟩
    exact hn fd hfd q hq
  · rw [List.all_eq_true]
    intro t htm
    rw [List.all_eq_true]
    intro c hc
    rw [decide_eq_true_eq]
    rcases List.mem_append.mp htm with hmem | hmem
    · exact he t hmem c hc
    · exact hp t hmem c hc

/-! ## C9: miss-age of pool tracks is bounded by t_miss_max -/

theorem agePhase_ageLe (sigma_h t_min : ℚ) (tmm : ℕ) (s : FrameState) (track : Track)
    (h : (∀ t ∈ s.updated, t.age ≤ tmm) ∧ (∀ t ∈ s.saved, t.age ≤ tmm)) :
    (∀ t ∈ (agePhase sigma_h t_min tmm s track).updated, t.age ≤ tmm) ∧
      (∀ t ∈ (agePhase sigma_h t_min tmm s track).saved, t.age ≤ tmm) := by
  unfold agePhase
  split_ifs with hc1 hc2
  · refine ⟨h.1, ?_⟩
    intro t htm
    rcases List.mem_append.mp htm with hmem | hmem
    · exact h.2 t hmem
    · cases List.mem_singleton.mp hmem
      exact hc1
  · exact h
  · exact h

theorem trackStep_ageLe (sigma_iou sigma_h t_min : ℚ) (tmm : ℕ) (fn : ℤ)
    (s : FrameState) (track : Track)
    (h : (∀ t ∈ s.updated, t.age ≤ tmm) ∧ (∀ t ∈ s.saved, t.age ≤ tmm)) :
    (∀ t ∈ (trackStep sigma_iou sigma_h t_min tmm fn s track).updated, t.age ≤ tmm) ∧
      (∀ t ∈ (trackStep sigma_iou sigma_h t_min tmm fn s track).saved, t.age ≤ tmm) := by
  unfold trackStep
  dsimp only
  cases hm : maxByKeyQ (fun x => iou (lastBbox track) (make_bbox x)) s.dets with
  | none => exact agePhase_ageLe sigma_h t_min tmm _ track h
  | some best =>
    by_cases hiou : sigma_iou ≤ iou (lastBbox track) (make_bbox best)
    · simp only [if_pos hiou]
      refine ⟨?_, h.2⟩
      intro t htm
      rcases List.mem_append.mp htm with hmem | hmem
      · exact h.1 t hmem
      · cases List.mem_singleton.mp hmem
        exact Nat.zero_le tmm
    · simp only [if_neg hiou]
      exact agePhase_ageLe sigma_h t_min tmm _ track h

theorem newfold_ageLe (tmm : ℕ) (fn : ℤ) :
    ∀ (ds : List Det) (ns : NewState), (∀ t ∈ ns.tracks, t.age ≤ tmm) →
      ∀ t ∈ (ds.foldl (newTrackStep fn) ns).tracks, t.age ≤ tmm := by
  intro ds
  induction ds with
  | nil => intro ns h; exact h
  | cons d t ih =>
    intro ns h
    simp only [List.foldl_cons]
    apply ih
    intro t2 ht2
    unfold newTrackStep at ht2
    dsimp only at ht2
    rcases List.mem_append.mp ht2 with hmem | hmem
    · exact h t2 hmem
    · cases List.mem_singleton.mp hmem
      exact Nat.zero_le tmm

theorem processFrame_poolAge (sigma_l sigma_h sigma_iou t_min : ℚ) (tmm : ℕ)
    (st : RunState) (fr : ℤ × List Det) :
    ∀ t ∈ (processFrame sigma_l sigma_h sigma_iou t_min tmm st fr).pool, t.age ≤ tmm := by
  have hfs := @foldl_preserves _ _
    (fun s : FrameState =>
      (∀ t ∈ s.updated, t.age ≤ tmm) ∧ (∀ t ∈ s.saved, t.age ≤ tmm)) _ st.pool
    (fun b a _ hb => trackStep_ageLe sigma_iou sigma_h t_min tmm fr.1 b a hb)
    (frameInit sigma_l st fr)
    ⟨by intro t htm; simp [frameInit] at htm, by intro t htm; simp [frameInit] at htm⟩
  have hns := newfold_ageLe tmm fr.1
    (frameFold sigma_l sigma_h sigma_iou t_min tmm st fr).dets
    { vehID := st.vehID, tracks := [], outs := [] }
    (by intro t htm; simp at htm)
  unfold processFrame
  dsimp only
  intro t htm
  simp only [List.mem_append] at htm
  rcases htm with (hmem | hmem) | hmem
  · exact hfs.1 t hmem
  · exact hfs.2 t hmem
  · exact hns t hmem

/-- C9: after each fully processed frame (any prefix of the input), every
track in the active pool has its miss-age `age` at most `t_miss_max`: the
counter is only incremented under the guard `age < t_miss_max` and reset to
0 on a match or at creation, so no track survives in the pool with a larger
miss-age (being a natural number, `age` is also at least 0). -/
theorem C9_pool_age_bounded (sigma_l sigma_h sigma_iou t_min : ℚ) (tmm : ℕ)
    (input : List (ℤ × List Det)) (k : ℕ) :
    (((input.take k).foldl (processFrame sigma_l sigma_h sigma_iou t_min tmm)
        initState).pool.all (fun t => decide (t.age ≤ tmm))) = true := by
  rw [List.all_eq_true]
  intro t ht
  rw [decide_eq_true_eq]
  rcases List.eq_nil_or_concat (input.take k) with hnil | ⟨L, b, hLb⟩
  · rw [hnil] at ht
    simp [initState] at ht
  · rw [hLb, List.concat_eq_append] at ht
    simp only [List.foldl_append, List.foldl_cons, List.foldl_nil] at ht
    exact processFrame_poolAge sigma_l sigma_h sigma_iou t_min tmm _ b t ht

/-! ## C5: merge renumbers frames contiguously -/

theorem foldl_appendRenumbered :
    ∀ (fs : List PFrame) (acc : List PFrame) (last : ℤ),
      fs.foldl appendRenumbered (acc, last) = (acc ++ renum fs last, last + fs.length) := by
  intro fs
  induction fs with
  | nil => intro acc last; simp [renum]
  | cons f t ih =>
    intro acc last
    simp only [List.foldl_cons, appendRenumbered, renum]
    rw [ih]
    simp only [Prod.mk.injEq, List.length_cons]
    constructor
    · simp [List.append_assoc]
    · push_cast
      ring

theorem renum_length : ∀ (fs : List PFrame) (last : ℤ),
    (renum fs last).length = fs.length := by
  intro fs
  induction fs with
  | nil => intro last; rfl
  | cons f t ih => intro last; simp [renum, ih]

theorem renum_map_frame : ∀ (fs : List PFrame) (last : ℤ),
    (renum fs last).map PFrame.frame =
      (List.range fs.length).map (fun i : ℕ => last + (i : ℤ) + 1) := by
  intro fs
  induction fs with
  | nil => intro last; simp [renum]
  | cons f t ih =>
    intro last
    simp only [renum, List.map_cons, PFrame.derive_frame_number, List.length_cons]
    rw [ih, List.range_succ_eq_map, List.map_cons, List.map_map]
    congr 1
    · norm_num
    · apply List.map_congr_left
      intro i _
      simp only [Function.comp]
      push_cast
      ring

theorem renum_map_content : ∀ (fs : List PFrame) (last : ℤ),
    (renum fs last).map frameContent = fs.map frameContent := by
  intro fs
  induction fs with
  | nil => intro last; rfl
  | cons f t ih =>
    intro last
    simp [renum, frameContent, PFrame.derive_frame_number, ih]

/-- C5: if group A has N frames numbered 1..N contiguously and starts before
group B with M frames, then `A.merge B` yields A's frames followed by B's
frames (same payloads, in order) renumbered so that the whole sequence is
numbered 1..(N+M) contiguously and strictly increasing, with no gaps or
repeats. -/
theorem C5_merge_renumbers_contiguously (A B : FrameGroup) (N : ℕ) (hpos : 0 < N)
    (hnum : A.frames.map PFrame.frame = (List.range N).map (fun i : ℕ => (i : ℤ) + 1))
    (hlt : A.start_date < B.start_date) :
    (A.merge B).frames.map PFrame.frame =
      (List.range (N + B.frames.length)).map (fun i : ℕ => (i : ℤ) + 1) ∧
    (A.merge B).frames.map frameContent = (A.frames ++ B.frames).map frameContent := by
  have hlen : A.frames.length = N := by
    have := congrArg List.length hnum
    simpa using this
  obtain ⟨m, rfl⟩ : ∃ m, N = m + 1 := ⟨N - 1, by omega⟩
  have hne : A.frames ≠ [] := by
    intro e
    rw [e] at hlen
    simp at hlen
  obtain ⟨x, hx⟩ := Option.isSome_iff_exists.mp (List.getLast?_isSome.mpr hne)
  have hgd : A.frames.getLastD default = x := by
    rw [List.getLastD_eq_getLast?, hx]
    rfl
  have hlast : x.frame = ((m + 1 : ℕ) : ℤ) := by
    have h1 : (A.frames.map PFrame.frame).getLast? = some x.frame := by
      rw [List.getLast?_map, hx]
      rfl
    have h2 : (((List.range (m + 1)).map (fun i : ℕ => (i : ℤ) + 1)).getLast?) =
        some ((m : ℤ) + 1) := by
      rw [List.range_succ, List.map_append]
      simp
    rw [hnum, h2] at h1
    have := Option.some.inj h1
    push_cast
    omega
  have hframes : (A.merge B).frames =
      A.frames ++ renum B.frames ((m + 1 : ℕ) : ℤ) := by
    unfold FrameGroup.merge
    rw [if_pos hlt]
    unfold FrameGroup.mergeOrdered
    dsimp only
    rw [foldl_appendRenumbered, hgd, hlast]
  constructor
  · rw [hframes, List.map_append, hnum, renum_map_frame]
    conv_rhs => rw [List.range_add, List.map_append, List.map_map]
    refine congrArg₂ (fun u v => u ++ v) rfl ?_
    apply List.map_congr_left
    intro i _
    simp only [Function.comp]
    push_cast
    ring
  · rw [hframes, List.map_append, renum_map_content, List.map_append]

/-- Witness for C5 at a two-frame group numbered 1, 2 merged with a later
one-frame group: the result is numbered 1, 2, 3. -/
theorem C5_merge_renumbers_contiguously_witness :
    (grpA5.merge grpB5).frames.map PFrame.frame =
      (List.range (2 + grpB5.frames.length)).map (fun i : ℕ => (i : ℤ) + 1) ∧
    (grpA5.merge grpB5).frames.map frameContent =
      (grpA5.frames ++ grpB5.frames).map frameContent :=
  C5_merge_renumbers_contiguously grpA5 grpB5 2 (by norm_num) (by decide) (by decide)

end OTVision
